import Mathlib

/-!
Verification of the optimal-alignment engine of the `tet` crate
(`src/distribution.rs`, `src/optimal_alignments.rs`, `src/lib.rs`).

Shallow-embedding conventions, used throughout:
* Rust `char` is Lean `Char`; `&str` inputs appear as `List Char`.
* `u128`/`usize` counts are `Nat` (no realizable input overflows them).
* `f64` values are modelled by `Fl`, an exact-rational idealization of IEEE
  doubles that tracks `nan`/`inf` propagation explicitly; ordinary finite
  arithmetic is exact rational arithmetic.
* `HashMap` is an association list; iteration order is the list order
  (the sums computed over it are order-independent in the exact model).
-/

namespace Tet

/-- Substitution cost, from `fn r(x, y)` inside `OptimalAlignments::msd`. -/
def r (x y : Char) : Nat := if x = y then 0 else 1

/-- The classic Levenshtein edit distance between two character sequences,
stated independently of the matrix fill (front recursion), used as the
specification-side definition for comparison with `msd`. -/
def levenshtein : List Char → List Char → Nat
  | [], t => t.length
  | p, [] => p.length
  | a :: p, b :: t =>
      min (min (levenshtein p (b :: t) + 1) (levenshtein (a :: p) t + 1))
        (levenshtein p t + r a b)
termination_by s t => s.length + t.length
decreasing_by all_goals simp_arith [List.length]

/-- One row of the `msd` dynamic-programming fill: walk the remaining
transcribed characters together with the previous row (suffix starting one
column to the left) and the value just computed to the left.  Mirrors the
inner `for j` loop of `OptimalAlignments::msd`: `pd + 1` is `d[i-1][j] + 1`,
`left + 1` is `d[i][j-1] + 1`, and `pu + r a b` is `d[i-1][j-1] + r`
(the source sorts the three candidates and takes the head, i.e. their
minimum). -/
def nextRow (a : Char) : List Char → List Nat → Nat → List Nat
  | b :: bs, pu :: pd :: ps, left =>
      let cell := min (min (pd + 1) (left + 1)) (pu + r a b)
      cell :: nextRow a bs (pd :: ps) cell
  | _, _, _ => []

/-- Rows `1 .. |p|` of the `msd` matrix, from the outer `for i` loop:
row `i` starts with `i` (the `d[i][0] = i` initialization) followed by the
filled cells. -/
def msdRows (t : List Char) : List Char → Nat → List Nat → List (List Nat)
  | [], _, _ => []
  | a :: as, i, prev =>
      let row := i :: nextRow a t prev i
      row :: msdRows t as (i + 1) row

/-- The minimum-string-distance matrix of `OptimalAlignments::msd`:
row `0` is `0, 1, ..., |t|`, and each later row is filled from the previous
one. -/
def msd (p t : List Char) : List (List Nat) :=
  List.range (t.length + 1) :: msdRows t p 1 (List.range (t.length + 1))

/-- The recurrence satisfied by the `msd` matrix cells, as a function of the
cell coordinates; the proof-side bridge between the row-by-row fill and the
Levenshtein distance. -/
def msdCell (p t : List Char) : Nat → Nat → Nat
  | 0, j => j
  | i + 1, 0 => i + 1
  | i + 1, j + 1 =>
      min (min (msdCell p t i (j + 1) + 1) (msdCell p t (i + 1) j + 1))
        (msdCell p t i j + r (p.getD i 'a') (t.getD j 'a'))
termination_by i j => i + j

/-- Matrix cell lookup `d[i][j]` (both indexes in range in every use below). -/
def entry (d : List (List Nat)) (i j : Nat) : Nat := (d.getD i []).getD j 0

/-- `s, s+1, ..., s+n-1`; proof-side normal form for `List.range`. -/
def countFrom : Nat → Nat → List Nat
  | _, 0 => []
  | s, n + 1 => s :: countFrom (s + 1) n

lemma countFrom_append_last : ∀ (n s : Nat), countFrom s (n + 1) = countFrom s n ++ [s + n] := by
  intro n
  induction n with
  | zero => intro s; simp [countFrom]
  | succ n ih =>
      intro s
      rw [show countFrom s (n + 2) = s :: countFrom (s + 1) (n + 1) from rfl, ih (s + 1)]
      simp [countFrom]
      omega

lemma range_eq_countFrom : ∀ n, List.range n = countFrom 0 n := by
  intro n
  induction n with
  | zero => simp [countFrom]
  | succ n ih =>
      rw [List.range_succ, ih]
      simpa using (countFrom_append_last n 0).symm

lemma levenshtein_nil_left (t : List Char) : levenshtein [] t = t.length := by
  simp [levenshtein]

lemma levenshtein_nil_right (l : List Char) : levenshtein l [] = l.length := by
  cases l <;> simp [levenshtein]

lemma levenshtein_cons_cons (a b : Char) (p t : List Char) :
    levenshtein (a :: p) (b :: t) =
      min (min (levenshtein p (b :: t) + 1) (levenshtein (a :: p) t + 1))
        (levenshtein p t + r a b) := by
  rw [levenshtein]

set_option maxHeartbeats 4000000 in
/-- The three-way-minimum shuffle at the heart of the back-extension
recurrence: both sides are the minimum of the same nine shifted atoms. -/
lemma min_shuffle (E F G H I J K L M rb rc : ℕ) :
    min (min (min (min (E+1) (F+1)) (G+rb) + 1) (min (min (H+1) (I+1)) (J+rb) + 1))
      (min (min (K+1) (L+1)) (M+rb) + rc)
    = min (min (min (min (E+1) (H+1)) (K+rc) + 1) (min (min (F+1) (I+1)) (L+rc) + 1))
      (min (min (G+1) (J+1)) (M+rc) + rb) := by
  simp only [← Nat.add_min_add_right]
  simp [min_assoc, min_comm, min_left_comm, Nat.add_assoc, Nat.add_comm, Nat.add_left_comm]

set_option maxHeartbeats 4000000 in
/-- Back-extension recurrence for the classic Levenshtein distance: extending
both strings by one character at the end satisfies the same three-way minimum
as the dynamic-programming recurrence. -/
lemma levenshtein_append (a b : Char) :
    ∀ s t : List Char,
      levenshtein (s ++ [a]) (t ++ [b]) =
        min (min (levenshtein s (t ++ [b]) + 1) (levenshtein (s ++ [a]) t + 1))
          (levenshtein s t + r a b) := by
  intro s
  induction s with
  | nil =>
      intro t
      induction t with
      | nil => simp [levenshtein]
      | cons c t iht =>
          simp only [List.nil_append, List.cons_append] at *
          rw [levenshtein_cons_cons a c (.nil) (t ++ [b]), iht,
            levenshtein_cons_cons a c (.nil) t]
          simp only [levenshtein_nil_left, List.length_append, List.length_cons,
            List.length_nil]
          omega
  | cons a1 s ihs =>
      intro t
      induction t with
      | nil =>
          have h1 := ihs []
          simp only [List.nil_append, List.cons_append] at *
          rw [levenshtein_cons_cons a1 b (s ++ [a]) .nil,
            levenshtein_cons_cons a1 b s .nil, h1]
          simp only [levenshtein_nil_right, levenshtein_nil_left,
            List.length_append, List.length_cons, List.length_nil]
          omega
      | cons c t iht =>
          have hs1 := ihs (c :: t)
          have hs2 := ihs t
          have e1 := levenshtein_cons_cons a1 c (s ++ [a]) (t ++ [b])
          have e2 := levenshtein_cons_cons a1 c s (t ++ [b])
          have e3 := levenshtein_cons_cons a1 c (s ++ [a]) t
          have e4 := levenshtein_cons_cons a1 c s t
          clear ihs
          simp only [List.cons_append] at *
          rw [e1, hs1, iht, hs2, e2, e3, e4]
          exact min_shuffle _ _ _ _ _ _ _ _ _ _ _

lemma msdCell_zero (p t : List Char) (j : Nat) : msdCell p t 0 j = j := by
  simp [msdCell]

lemma msdCell_succ_zero (p t : List Char) (i : Nat) : msdCell p t (i + 1) 0 = i + 1 := by
  simp [msdCell]

lemma msdCell_succ_succ (p t : List Char) (i j : Nat) :
    msdCell p t (i + 1) (j + 1) =
      min (min (msdCell p t i (j + 1) + 1) (msdCell p t (i + 1) j + 1))
        (msdCell p t i j + r (p.getD i 'a') (t.getD j 'a')) := by
  rw [msdCell]

lemma take_succ_getD {α : Type} (d : α) :
    ∀ (l : List α) (n : Nat), n < l.length → l.take (n + 1) = l.take n ++ [l.getD n d] := by
  intro l
  induction l with
  | nil => intro n h; simp at h
  | cons x xs ih =>
      intro n h
      cases n with
      | zero => simp
      | succ n =>
          simp only [List.take_succ_cons, List.getD_cons_succ]
          rw [ih n (by simpa using h)]
          simp

lemma drop_eq_getD_cons {α : Type} (d : α) :
    ∀ (l : List α) (n : Nat), n < l.length → l.drop n = l.getD n d :: l.drop (n + 1) := by
  intro l
  induction l with
  | nil => intro n h; simp at h
  | cons x xs ih =>
      intro n h
      cases n with
      | zero => simp
      | succ n => simpa using ih n (by simpa using h)

/-- The msd recurrence cells compute exactly the classic Levenshtein distance
of the corresponding prefixes. -/
lemma msdCell_levenshtein (p t : List Char) :
    ∀ i j, i ≤ p.length → j ≤ t.length →
      msdCell p t i j = levenshtein (p.take i) (t.take j) := by
  intro i
  induction i with
  | zero =>
      intro j _ hj
      rw [msdCell_zero, List.take_zero, levenshtein_nil_left, List.length_take]
      omega
  | succ i ih =>
      intro j
      induction j with
      | zero =>
          intro hi _
          rw [msdCell_succ_zero, List.take_zero, levenshtein_nil_right, List.length_take]
          omega
      | succ j ihj =>
          intro hi hj
          have hip : i < p.length := by omega
          have hjt : j < t.length := by omega
          rw [msdCell_succ_succ, ih (j + 1) hip.le hj, ihj hi hjt.le, ih j hip.le hjt.le,
            take_succ_getD 'a' p i hip, take_succ_getD 'a' t j hjt, levenshtein_append]

/-- The inner `for j` loop of `msd` fills row `i + 1` with the recurrence
values. -/
lemma nextRow_spec (p t : List Char) (i : Nat) :
    ∀ n k, k + n = t.length →
      nextRow (p.getD i 'a') (t.drop k) ((countFrom k (n + 1)).map (msdCell p t i))
        (msdCell p t (i + 1) k)
      = (countFrom (k + 1) n).map (msdCell p t (i + 1)) := by
  intro n
  induction n with
  | zero =>
      intro k hk
      have hk2 : k = t.length := by omega
      rw [hk2, List.drop_length]
      simp [countFrom, nextRow]
  | succ n ih =>
      intro k hk
      have hkt : k < t.length := by omega
      rw [drop_eq_getD_cons 'a' t k hkt]
      simp only [countFrom, List.map_cons]
      simp only [nextRow]
      rw [show min (min (msdCell p t i (k + 1) + 1) (msdCell p t (i + 1) k + 1))
            (msdCell p t i k + r (p.getD i 'a') (t.getD k 'a'))
          = msdCell p t (i + 1) (k + 1) from (msdCell_succ_succ p t i k).symm]
      have ih2 := ih (k + 1) (by omega)
      simp only [countFrom, List.map_cons] at ih2
      rw [ih2]

/-- The outer `for i` loop of `msd` produces rows `i + 1 .. |p|` of the
recurrence matrix. -/
lemma msdRows_spec (p t : List Char) :
    ∀ m i, i + m = p.length →
      msdRows t (p.drop i) (i + 1) ((countFrom 0 (t.length + 1)).map (msdCell p t i))
      = (countFrom (i + 1) m).map
          (fun i2 => (countFrom 0 (t.length + 1)).map (msdCell p t i2)) := by
  intro m
  induction m with
  | zero =>
      intro i h
      have h2 : i = p.length := by omega
      rw [h2, List.drop_length]
      simp [msdRows, countFrom]
  | succ m ih =>
      intro i h
      have hip : i < p.length := by omega
      rw [drop_eq_getD_cons 'a' p i hip]
      simp only [msdRows]
      have hnr := nextRow_spec p t i (t.length) 0 (by omega)
      rw [List.drop_zero, msdCell_succ_zero] at hnr
      simp only [Nat.zero_add] at hnr
      rw [hnr]
      have hrow : (i + 1) :: (countFrom 1 t.length).map (msdCell p t (i + 1))
          = (countFrom 0 (t.length + 1)).map (msdCell p t (i + 1)) := by
        simp [countFrom, msdCell_succ_zero]
      rw [hrow, ih (i + 1) (by omega)]
      simp [countFrom]

lemma countFrom_map_msdCell_zero (p t : List Char) :
    ∀ n s, (countFrom s n).map (msdCell p t 0) = countFrom s n := by
  intro n
  induction n with
  | zero => intro s; simp [countFrom]
  | succ n ih => intro s; simp [countFrom, msdCell_zero, ih]

/-- The matrix built by `msd` is exactly the table of recurrence values. -/
lemma msd_spec (p t : List Char) :
    msd p t = (countFrom 0 (p.length + 1)).map
      (fun i => (countFrom 0 (t.length + 1)).map (msdCell p t i)) := by
  unfold msd
  have h0 : List.range (t.length + 1) = (countFrom 0 (t.length + 1)).map (msdCell p t 0) := by
    rw [range_eq_countFrom, countFrom_map_msdCell_zero]
  rw [h0]
  have h1 := msdRows_spec p t p.length 0 (by omega)
  rw [List.drop_zero] at h1
  simp only [Nat.zero_add] at h1
  rw [h1]
  simp [countFrom]

lemma getD_countFrom_map {α : Type} (f : Nat → α) (dflt : α) :
    ∀ n s i, i < n → ((countFrom s n).map f).getD i dflt = f (s + i) := by
  intro n
  induction n with
  | zero => intro s i h; omega
  | succ n ih =>
      intro s i h
      cases i with
      | zero => simp [countFrom]
      | succ i =>
          simp only [countFrom, List.map_cons, List.getD_cons_succ]
          rw [ih (s + 1) i (by omega)]
          congr 1
          omega

/-- In-range lookups into the `msd` matrix yield the recurrence values. -/
lemma entry_msd (p t : List Char) (i j : Nat) (hi : i ≤ p.length) (hj : j ≤ t.length) :
    entry (msd p t) i j = msdCell p t i j := by
  unfold entry
  rw [msd_spec, getD_countFrom_map _ _ (p.length + 1) 0 i (by omega),
    getD_countFrom_map _ _ (t.length + 1) 0 j (by omega)]
  simp

lemma msdCell_zero_right (p t : List Char) (i : Nat) : msdCell p t i 0 = i := by
  cases i with
  | zero => exact msdCell_zero p t 0
  | succ i => exact msdCell_succ_zero p t i

/-- C1: for every pair of finite strings, the matrix built by `msd` satisfies
`D[i][0] = i`, `D[0][j] = j` and the three-way-minimum recurrence
`D[i][j] = min (D[i-1][j]+1) (D[i][j-1]+1) (D[i-1][j-1] + r (P[i-1]) (T[j-1]))`
with `r a b = 0` iff `a = b`, so that the corner `D[X][Y]` is the classic
Levenshtein edit distance; moreover `msd "abcd" "acbd"` is the stated
5×5 matrix and `msd "quickly" "qucehkly"` has value `3` at cell `(7,8)`. -/
theorem C1_msd_matrix :
    (∀ p t : List Char,
      (∀ i, i ≤ p.length → entry (msd p t) i 0 = i) ∧
      (∀ j, j ≤ t.length → entry (msd p t) 0 j = j) ∧
      (∀ i j, i < p.length → j < t.length →
        entry (msd p t) (i + 1) (j + 1) =
          min (min (entry (msd p t) i (j + 1) + 1) (entry (msd p t) (i + 1) j + 1))
            (entry (msd p t) i j + r (p.getD i 'a') (t.getD j 'a'))) ∧
      (∀ a b : Char, r a b = 0 ↔ a = b) ∧
      entry (msd p t) p.length t.length = levenshtein p t) ∧
    msd ['a', 'b', 'c', 'd'] ['a', 'c', 'b', 'd'] =
      [[0, 1, 2, 3, 4], [1, 0, 1, 2, 3], [2, 1, 1, 1, 2], [3, 2, 1, 2, 2], [4, 3, 2, 2, 2]] ∧
    entry (msd ['q', 'u', 'i', 'c', 'k', 'l', 'y'] ['q', 'u', 'c', 'e', 'h', 'k', 'l', 'y']) 7 8
      = 3 := by
  refine ⟨fun p t => ⟨?_, ?_, ?_, ?_, ?_⟩, by decide, by decide⟩
  · intro i hi
    rw [entry_msd p t i 0 hi (by omega), msdCell_zero_right]
  · intro j hj
    rw [entry_msd p t 0 j (by omega) hj, msdCell_zero]
  · intro i j hi hj
    rw [entry_msd p t (i + 1) (j + 1) (by omega) (by omega),
      entry_msd p t i (j + 1) (by omega) (by omega),
      entry_msd p t (i + 1) j (by omega) (by omega),
      entry_msd p t i j (by omega) (by omega),
      msdCell_succ_succ]
  · intro a b
    by_cases h : a = b <;> simp [r, h]
  · rw [entry_msd p t p.length t.length (by omega) (by omega),
      msdCell_levenshtein p t p.length t.length (by omega) (by omega),
      List.take_length, List.take_length]

/-- Witness for C1 at concrete inputs, discharging every hypothesis. -/
theorem C1_msd_matrix_witness :
    entry (msd ['a', 'b'] ['b']) 1 0 = 1 ∧
    entry (msd ['a', 'b'] ['b']) 0 1 = 1 ∧
    entry (msd ['a', 'b'] ['b']) 1 1 =
      min (min (entry (msd ['a', 'b'] ['b']) 0 1 + 1) (entry (msd ['a', 'b'] ['b']) 1 0 + 1))
        (entry (msd ['a', 'b'] ['b']) 0 0 + r 'a' 'b') ∧
    (r 'a' 'a' = 0 ↔ 'a' = 'a') ∧
    entry (msd ['a', 'b'] ['b']) 2 1 = levenshtein ['a', 'b'] ['b'] :=
  ⟨(C1_msd_matrix.1 ['a', 'b'] ['b']).1 1 (by decide),
   (C1_msd_matrix.1 ['a', 'b'] ['b']).2.1 1 (by decide),
   (C1_msd_matrix.1 ['a', 'b'] ['b']).2.2.1 0 0 (by decide) (by decide),
   (C1_msd_matrix.1 ['a', 'b'] ['b']).2.2.2.1 'a' 'a',
   (C1_msd_matrix.1 ['a', 'b'] ['b']).2.2.2.2⟩

/-- Exact rational addition in a kernel-computable normal form
(`Rat.add` itself is irreducible); proved equal to `+` below. -/
def qAdd (a b : ℚ) : ℚ := mkRat (a.num * b.den + b.num * a.den) (a.den * b.den)

/-- Kernel-computable rational negation. -/
def qNeg (a : ℚ) : ℚ := mkRat (-a.num) a.den

/-- Kernel-computable rational multiplication. -/
def qMul (a b : ℚ) : ℚ := mkRat (a.num * b.num) (a.den * b.den)

/-- Kernel-computable rational inverse. -/
def qInv (a : ℚ) : ℚ :=
  if 0 ≤ a.num then mkRat (a.den : Int) a.num.toNat else mkRat (-(a.den : Int)) a.num.natAbs

/-- Kernel-computable rational division. -/
def qDiv (a b : ℚ) : ℚ := qMul a (qInv b)

lemma qAdd_eq (a b : ℚ) : qAdd a b = a + b := by
  have ha : ((a.den : ℚ)) ≠ 0 := by exact_mod_cast a.den_nz
  have hb : ((b.den : ℚ)) ≠ 0 := by exact_mod_cast b.den_nz
  rw [qAdd, Rat.mkRat_eq_div]
  push_cast
  conv_rhs => rw [← Rat.num_div_den a, ← Rat.num_div_den b]
  rw [div_add_div _ _ ha hb]
  ring_nf

lemma qMul_eq (a b : ℚ) : qMul a b = a * b := by
  rw [qMul, Rat.mkRat_eq_div]
  push_cast
  conv_rhs => rw [← Rat.num_div_den a, ← Rat.num_div_den b]
  rw [div_mul_div_comm]

lemma qNeg_eq (a : ℚ) : qNeg a = -a := by
  rw [qNeg, Rat.mkRat_eq_div]
  push_cast
  rw [neg_div, Rat.num_div_den]

lemma qInv_eq (a : ℚ) : qInv a = a⁻¹ := by
  rw [qInv]
  split
  · rename_i h
    rw [Rat.mkRat_eq_div, Rat.inv_def', Rat.divInt_eq_div]
    push_cast
    congr 1
    exact_mod_cast Int.toNat_of_nonneg h
  · rename_i h
    rw [Rat.mkRat_eq_div, Rat.inv_def', Rat.divInt_eq_div]
    push_cast [Int.cast_natAbs]
    rw [abs_of_neg (show ((a.num : ℚ)) < 0 by exact_mod_cast (by omega : a.num < 0)),
      neg_div_neg_eq]

lemma qDiv_eq (a b : ℚ) : qDiv a b = a / b := by
  rw [qDiv, qMul_eq, qInv_eq, div_eq_mul_inv]

/-- Idealized IEEE double: exact rational arithmetic plus the three special
values; `nan`/`inf` creation and propagation follow the IEEE rules exactly
(all zeroes here are `+0`, the only sign that arises from the counts and
probabilities the program divides). -/
inductive Fl : Type where
  | num : ℚ → Fl
  | inf : Fl
  | ninf : Fl
  | nan : Fl
deriving DecidableEq

/-- IEEE addition on the idealized doubles. -/
def Fl.add : Fl → Fl → Fl
  | Fl.nan, _ => Fl.nan
  | _, Fl.nan => Fl.nan
  | Fl.num a, Fl.num b => Fl.num (qAdd a b)
  | Fl.inf, Fl.ninf => Fl.nan
  | Fl.ninf, Fl.inf => Fl.nan
  | Fl.inf, _ => Fl.inf
  | _, Fl.inf => Fl.inf
  | Fl.ninf, _ => Fl.ninf
  | _, Fl.ninf => Fl.ninf

/-- IEEE negation. -/
def Fl.neg : Fl → Fl
  | Fl.num a => Fl.num (qNeg a)
  | Fl.inf => Fl.ninf
  | Fl.ninf => Fl.inf
  | Fl.nan => Fl.nan

/-- IEEE subtraction. -/
def Fl.sub (x y : Fl) : Fl := x.add y.neg

/-- IEEE multiplication. -/
def Fl.mul : Fl → Fl → Fl
  | Fl.nan, _ => Fl.nan
  | _, Fl.nan => Fl.nan
  | Fl.num a, Fl.num b => Fl.num (qMul a b)
  | Fl.num a, Fl.inf => if a = 0 then Fl.nan else if 0 < a then Fl.inf else Fl.ninf
  | Fl.inf, Fl.num a => if a = 0 then Fl.nan else if 0 < a then Fl.inf else Fl.ninf
  | Fl.num a, Fl.ninf => if a = 0 then Fl.nan else if 0 < a then Fl.ninf else Fl.inf
  | Fl.ninf, Fl.num a => if a = 0 then Fl.nan else if 0 < a then Fl.ninf else Fl.inf
  | Fl.inf, Fl.inf => Fl.inf
  | Fl.ninf, Fl.ninf => Fl.inf
  | Fl.inf, Fl.ninf => Fl.ninf
  | Fl.ninf, Fl.inf => Fl.ninf

/-- IEEE division (`0/0 = nan`, `x/+0 = ±inf` for `x ≠ 0`). -/
def Fl.div : Fl → Fl → Fl
  | Fl.nan, _ => Fl.nan
  | _, Fl.nan => Fl.nan
  | Fl.num a, Fl.num b =>
      if b = 0 then (if a = 0 then Fl.nan else if 0 < a then Fl.inf else Fl.ninf)
      else Fl.num (qDiv a b)
  | Fl.num _, Fl.inf => Fl.num 0
  | Fl.num _, Fl.ninf => Fl.num 0
  | Fl.inf, Fl.num b => if 0 ≤ b then Fl.inf else Fl.ninf
  | Fl.ninf, Fl.num b => if 0 ≤ b then Fl.ninf else Fl.inf
  | Fl.inf, Fl.inf => Fl.nan
  | Fl.inf, Fl.ninf => Fl.nan
  | Fl.ninf, Fl.inf => Fl.nan
  | Fl.ninf, Fl.ninf => Fl.nan

/-- `Element` from `optimal_alignments.rs`: a character or the alignment gap
(`Null`). -/
inductive Element : Type where
  | Character : Char → Element
  | Null : Element
deriving DecidableEq

/-- `Element::is_null`. -/
def Element.isNull : Element → Bool
  | Element.Null => true
  | _ => false

/-- Guard of the diagonal match branch at cell `(x, y)`:
`d[x][y] == d[x-1][y-1] && presented[x-1] == transcribed[y-1]`. -/
def matchGuard (p t : List Char) (d : List (List Nat)) (x y : Nat) : Bool :=
  (entry d x y == entry d (x - 1) (y - 1)) && (p.getD (x - 1) 'a' == t.getD (y - 1) 'a')

/-- Guard of the diagonal substitution branch: `d[x][y] == d[x-1][y-1] + 1`. -/
def subGuard (d : List (List Nat)) (x y : Nat) : Bool :=
  entry d x y == entry d (x - 1) (y - 1) + 1

/-- Guard of the up branch: `d[x][y] == d[x-1][y] + 1`. -/
def upGuard (d : List (List Nat)) (x y : Nat) : Bool :=
  entry d x y == entry d (x - 1) y + 1

/-- Guard of the left branch: `d[x][y] == d[x][y-1] + 1`. -/
def leftGuard (d : List (List Nat)) (x y : Nat) : Bool :=
  entry d x y == entry d x (y - 1) + 1

/-- One conditional branch of the backtrace: when the guard holds, run the
branch body on the threaded state, otherwise pass the state through
unchanged. -/
def branch (c : Prop) [Decidable c]
    (k : Option (List Element × List Element) → Option (List Element × List Element))
    (st : Option (List Element × List Element)) : Option (List Element × List Element) :=
  if c then k st else st

/-- `OptimalAlignments::alignments`, the recursive multi-path backtrace.  The
mutable pair `self.presented`/`self.transcribed` is threaded through as the
state `st`; every base-case hit at `(0, 0)` overwrites it, so the final state
holds the alignment of the last completed depth-first path, exactly as in the
source.  The four guarded branches run in source order (diagonal match,
diagonal substitution, up, left), innermost first in the `branch` nesting.
The extra `fuel` argument only licenses structural recursion: every recursive
call strictly decreases `x + y`, so the out-of-fuel branch (which returns the
state unchanged) is never taken when `fuel ≥ x + y`, the only way it is ever
called. -/
def alignments (p t : List Char) (d : List (List Nat)) :
    Nat → Nat → Nat → List Element → List Element →
      Option (List Element × List Element) → Option (List Element × List Element)
  | 0, x, y, pa, ta, st =>
      if x = 0 ∧ y = 0 then some (pa, ta) else st
  | fuel + 1, x, y, pa, ta, st =>
      if x = 0 ∧ y = 0 then some (pa, ta)
      else
        branch (0 < y ∧ leftGuard d x y = true)
          (fun s => alignments p t d fuel x (y - 1)
            (Element.Null :: pa)
            (Element.Character (t.getD (y - 1) 'a') :: ta) s)
          (branch (0 < x ∧ upGuard d x y = true)
            (fun s => alignments p t d fuel (x - 1) y
              (Element.Character (p.getD (x - 1) 'a') :: pa)
              (Element.Null :: ta) s)
            (branch (0 < x ∧ 0 < y ∧ subGuard d x y = true)
              (fun s => alignments p t d fuel (x - 1) (y - 1)
                (Element.Character (p.getD (x - 1) 'a') :: pa)
                (Element.Character (t.getD (y - 1) 'a') :: ta) s)
              (branch (0 < x ∧ 0 < y ∧ matchGuard p t d x y = true)
                (fun s => alignments p t d fuel (x - 1) (y - 1)
                  (Element.Character (p.getD (x - 1) 'a') :: pa)
                  (Element.Character (t.getD (y - 1) 'a') :: ta) s)
                st)))

/-- The `OptimalAlignments` record.  The borrowed distribution is passed to
the probability functions below as an explicit argument (as the `lib.rs`
revision of the same code does); the remaining fields are as in the source. -/
structure OptimalAlignments : Type where
  presented : List Element
  transcribed : List Element
  p_null : Fl
  len : Nat
deriving DecidableEq

/-- `OptimalAlignments::n`: count the aligned cell pairs satisfying a
predicate. -/
def OptimalAlignments.n (a : OptimalAlignments) (f : Element → Element → Bool) : Nat :=
  (a.presented.zip a.transcribed).countP fun pr => f pr.1 pr.2

/-- `OptimalAlignments::p_null` (the method): gap frequency of the presented
track. -/
def OptimalAlignments.pNull (a : OptimalAlignments) : Fl :=
  Fl.div (Fl.num ((a.n fun p _ => p == Element.Null : Nat) : ℚ)) (Fl.num ((a.len : Nat) : ℚ))

/-- `OptimalAlignments::new`: build the distance matrix, backtrack from
`(|p|, |t|)` with empty accumulators and empty initial state, check the
length invariant (the source `panic!`s on mismatch, modelled as `none`), and
fill in `len` and `p_null` (initialized to `0.0`, then overwritten with the
computed value, as in the source). -/
def OptimalAlignments.new (p t : List Char) : Option OptimalAlignments :=
  let d := msd p t
  let pair := (alignments p t d (p.length + t.length) p.length t.length [] [] none).getD ([], [])
  if pair.1.length = pair.2.length then
    let a0 : OptimalAlignments :=
      { presented := pair.1, transcribed := pair.2, p_null := Fl.num 0, len := pair.1.length }
    some { a0 with p_null := a0.pNull }
  else none

/-- `OptimalAlignments::insertion_probability`:
`N(presented gap, transcribed symbol) / len`. -/
def insertion_probability (a : OptimalAlignments) : Fl :=
  Fl.div (Fl.num ((a.n fun p e => p.isNull && !e.isNull : Nat) : ℚ))
    (Fl.num ((a.len : Nat) : ℚ))

/-- `OptimalAlignments::omission_probability`. -/
def omission_probability (a : OptimalAlignments) : Fl :=
  Fl.mul
    (Fl.div (Fl.num ((a.n fun p e => !p.isNull && e.isNull : Nat) : ℚ))
      (Fl.num ((a.n fun p _ => !p.isNull : Nat) : ℚ)))
    (Fl.sub (Fl.num 1) (insertion_probability a))

/-- `OptimalAlignments::substitution_probability`. -/
def substitution_probability (a : OptimalAlignments) : Fl :=
  Fl.mul
    (Fl.div (Fl.num ((a.n fun p e => !p.isNull && (!e.isNull && p != e) : Nat) : ℚ))
      (Fl.num ((a.n fun p _ => !p.isNull : Nat) : ℚ)))
    (Fl.sub (Fl.num 1) (insertion_probability a))

/-- `OptimalAlignments::probability_of_correct_entries`. -/
def probability_of_correct_entries (a : OptimalAlignments) : Fl :=
  Fl.mul
    (Fl.div (Fl.num ((a.n fun p e => !p.isNull && (!e.isNull && p == e) : Nat) : ℚ))
      (Fl.num ((a.n fun p _ => !p.isNull : Nat) : ℚ)))
    (Fl.sub (Fl.num 1) (insertion_probability a))

/-- `Distribution` from `distribution.rs` (`HashMap<char, f64>` as an
association list). -/
structure Distribution : Type where
  map : List (Char × Fl)
deriving DecidableEq

/-- `Distribution::p`: point lookup, `None` when the symbol is absent. -/
def Distribution.p (d : Distribution) (c : Char) : Option Fl :=
  (d.map.find? fun pr => pr.1 == c).map fun pr => pr.2

/-- `Distribution::hx`: Shannon entropy `-Σ pᵢ·log2 pᵢ`, parameterized by the
real log function. -/
def Distribution.hx (log2 : Fl → Fl) (d : Distribution) : Fl :=
  Fl.neg ((d.map.map fun pr => Fl.mul pr.2 (log2 pr.2)).foldl Fl.add (Fl.num 0))

/-- `Frequencies` from `distribution.rs` (`HashMap<char, u128>` as an
association list). -/
structure Frequencies : Type where
  map : List (Char × Nat)
deriving DecidableEq

/-- `Frequencies::record`: increment an existing symbol's count, or insert it
at count `1`. -/
def Frequencies.record (f : Frequencies) (c : Char) : Frequencies :=
  if (f.map.find? fun pr => pr.1 == c).isSome then
    { map := f.map.map fun pr => if pr.1 == c then (pr.1, pr.2 + 1) else pr }
  else
    { map := f.map ++ [(c, 1)] }

/-- `Frequencies::n`: total count. -/
def Frequencies.n (f : Frequencies) : Nat := (f.map.map fun pr => pr.2).sum

/-- `Frequencies::entry_char`: insert an absent symbol at count `0`, leave a
present symbol untouched. -/
def Frequencies.entry_char (f : Frequencies) (c : Char) : Frequencies :=
  if (f.map.find? fun pr => pr.1 == c).isSome then f
  else { map := f.map ++ [(c, 0)] }

/-- `Frequencies::retain`. -/
def Frequencies.retain (f : Frequencies) (keep : Char → Bool) : Frequencies :=
  { map := f.map.filter fun pr => keep pr.1 }

/-- `Distribution::new`: divide every count by the total count. -/
def Distribution.new (f : Frequencies) : Distribution :=
  { map := f.map.map fun pr =>
      (pr.1, Fl.div (Fl.num ((pr.2 : Nat) : ℚ)) (Fl.num ((f.n : Nat) : ℚ))) }

/-- `OptimalAlignments::p`: `p(i)`, `None` when a character is outside the
distribution. -/
def OptimalAlignments.p (dist : Distribution) (a : OptimalAlignments) :
    Element → Option Fl
  | Element.Null => some a.p_null
  | Element.Character c => dist.p c

/-- `OptimalAlignments::p_dash`: `p'(i)`. -/
def p_dash (dist : Distribution) (a : OptimalAlignments) : Element → Option Fl
  | Element.Null => some a.p_null
  | c => (OptimalAlignments.p dist a c).map fun pc => Fl.mul pc (Fl.sub (Fl.num 1) a.p_null)

/-- `OptimalAlignments::p_i_j`, the per-cell transition probability.  The
`(Null, Null)` arm is `unreachable!()` in the source and is modelled as
`nan`; every use below provably avoids it. -/
def p_i_j (dist : Distribution) (a : OptimalAlignments) : Element → Element → Fl
  | Element.Null, Element.Character _ =>
      Fl.div (insertion_probability a) (Fl.num ((dist.map.length : Nat) : ℚ))
  | Element.Character _, Element.Null => omission_probability a
  | Element.Character pc, Element.Character ec =>
      if pc ≠ ec then
        Fl.div (substitution_probability a) (Fl.num (((dist.map.length - 1 : Nat)) : ℚ))
      else probability_of_correct_entries a
  | Element.Null, Element.Null => Fl.nan

/-- `OptimalAlignments::pij`: joint probability `p(i,j) = p'(i) × p_i(j)`. -/
def pij (dist : Distribution) (a : OptimalAlignments) (i j : Element) : Option Fl :=
  (p_dash dist a i).map fun pdi => Fl.mul pdi (p_i_j dist a i j)

/-- The fold step of `p_j_i`'s denominator, the closure
`|acc, p| if acc.is_none() || p.is_none() { None } else { Some(acc + p) }`. -/
def sumStep (acc el : Option Fl) : Option Fl :=
  match acc, el with
  | some v, some w => some (Fl.add v w)
  | _, _ => none

/-- `OptimalAlignments::p_j_i` as written in `optimal_alignments.rs`:
numerator `pij i j`, denominator the `None`-propagating fold of `pij i' j`
with `i'` ranging over the distribution's symbols only — the gap extension
(`.chain(extend)`) is commented out in this revision of the source. -/
def p_j_i (dist : Distribution) (a : OptimalAlignments) (i j : Element) : Option Fl := do
  let x ← pij dist a i j
  let s ← (dist.map.map fun pr => pij dist a (Element.Character pr.1) j).foldl
      sumStep (some (Fl.num 0))
  pure (Fl.div x s)

/-- `OptimalAlignments::hyx`: conditional entropy `H_Y(X)`, iterating `i`
over the distribution's symbols and `j` over the symbols plus the gap,
skipping `(Null, Null)`; parameterized by the real log function `log2`
(whose values never influence definedness). -/
def hyx (log2 : Fl → Fl) (dist : Distribution) (a : OptimalAlignments) : Option Fl := do
  let is := dist.map.map fun pr => Element.Character pr.1
  let js := is ++ [Element.Null]
  let acc ← is.foldlM (fun acc i =>
    js.foldlM (fun acc j =>
      if i.isNull && j.isNull then pure acc
      else do
        let x ← pij dist a i j
        let y ← p_j_i dist a i j
        pure (Fl.add acc (Fl.mul x (log2 y)))) acc) (Fl.num 0)
  pure (Fl.neg acc)

/-- `OptimalAlignments::ixy`: `I(X;Y) = H(X) - H_Y(X)`. -/
def ixy (log2 : Fl → Fl) (dist : Distribution) (a : OptimalAlignments) : Option Fl :=
  (hyx log2 dist a).map fun h => Fl.sub (Distribution.hx log2 dist) h

/-- No aligned cell is a gap in both tracks. -/
def noDoubleGap (pa ta : List Element) : Bool :=
  (pa.zip ta).all fun pr => !(pr.1 == Element.Null && pr.2 == Element.Null)

/-- Invariant carried by the threaded backtracking state: the empty state is
fine, and a stored pair has equal-length tracks of length at least `M` with
no double gap. -/
def GoodSt (M : Nat) : Option (List Element × List Element) → Prop
  | none => True
  | some pr => pr.1.length = pr.2.length ∧ M ≤ pr.1.length ∧ noDoubleGap pr.1 pr.2 = true

lemma branch_good {M : Nat} (c : Prop) [Decidable c]
    (k : Option (List Element × List Element) → Option (List Element × List Element))
    (st : Option (List Element × List Element))
    (hst : GoodSt M st) (hk : ∀ s, GoodSt M s → GoodSt M (k s)) :
    GoodSt M (branch c k st) := by
  unfold branch
  split
  · exact hk st hst
  · exact hst

lemma noDoubleGap_cons {e1 e2 : Element} {pa ta : List Element}
    (he : (!(e1 == Element.Null && e2 == Element.Null)) = true)
    (h : noDoubleGap pa ta = true) : noDoubleGap (e1 :: pa) (e2 :: ta) = true := by
  unfold noDoubleGap at *
  simp only [List.zip_cons_cons, List.all_cons, Bool.and_eq_true]
  exact ⟨he, h⟩

/-- Every state produced by the backtrace satisfies the invariant, provided
the accumulators do: each branch extends both accumulators by exactly one
cell that is never a double gap, and the remaining distance to `(0,0)` is at
least `max x y`. -/
lemma alignments_good (p t : List Char) (d : List (List Nat)) (M : Nat) :
    ∀ fuel x y pa ta st,
      pa.length = ta.length →
      noDoubleGap pa ta = true →
      M ≤ pa.length + max x y →
      GoodSt M st →
      GoodSt M (alignments p t d fuel x y pa ta st) := by
  intro fuel
  induction fuel with
  | zero =>
      intro x y pa ta st hlen hgap hM hst
      rw [alignments]
      split
      · rename_i h
        exact ⟨hlen, by show M ≤ pa.length; omega, hgap⟩
      · exact hst
  | succ fuel ih =>
      intro x y pa ta st hlen hgap hM hst
      rw [alignments]
      split
      · rename_i h
        exact ⟨hlen, by show M ≤ pa.length; omega, hgap⟩
      · refine branch_good _ _ _ ?_ ?_
        · refine branch_good _ _ _ ?_ ?_
          · refine branch_good _ _ _ ?_ ?_
            · refine branch_good _ _ _ hst ?_
              · intro s hs
                refine ih (x - 1) (y - 1) _ _ s (by simp [hlen]) ?_ (by simp; omega) hs
                exact noDoubleGap_cons (by rfl) hgap
            · intro s hs
              refine ih (x - 1) (y - 1) _ _ s (by simp [hlen]) ?_ (by simp; omega) hs
              exact noDoubleGap_cons (by rfl) hgap
          · intro s hs
            refine ih (x - 1) y _ _ s (by simp [hlen]) ?_ (by simp; omega) hs
            exact noDoubleGap_cons (by rfl) hgap
        · intro s hs
          refine ih x (y - 1) _ _ s (by simp [hlen]) ?_ (by simp; omega) hs
          exact noDoubleGap_cons (by rfl) hgap

lemma branch_isSome (c : Prop) [Decidable c]
    (k : Option (List Element × List Element) → Option (List Element × List Element))
    (st : Option (List Element × List Element))
    (hst : st.isSome = true) (hk : ∀ s, s.isSome = true → (k s).isSome = true) :
    (branch c k st).isSome = true := by
  unfold branch
  split
  · exact hk st hst
  · exact hst

/-- Once the threaded state holds a pair, it never reverts to `none`. -/
lemma alignments_isSome_mono (p t : List Char) (d : List (List Nat)) :
    ∀ fuel x y pa ta st, st.isSome = true →
      (alignments p t d fuel x y pa ta st).isSome = true := by
  intro fuel
  induction fuel with
  | zero =>
      intro x y pa ta st h
      rw [alignments]
      split
      · rfl
      · exact h
  | succ fuel ih =>
      intro x y pa ta st h
      rw [alignments]
      split
      · rfl
      · refine branch_isSome _ _ _ ?_ fun s hs => ih _ _ _ _ s hs
        refine branch_isSome _ _ _ ?_ fun s hs => ih _ _ _ _ s hs
        refine branch_isSome _ _ _ ?_ fun s hs => ih _ _ _ _ s hs
        exact branch_isSome _ _ _ h fun s hs => ih _ _ _ _ s hs

lemma branch_isSome_of_true {c : Prop} [Decidable c] (hc : c)
    (k : Option (List Element × List Element) → Option (List Element × List Element))
    (st : Option (List Element × List Element))
    (hk : (k st).isSome = true) : (branch c k st).isSome = true := by
  unfold branch
  rw [if_pos hc]
  exact hk

/-- On the matrix produced by `msd`, at least one guard fires at every cell
other than `(0, 0)` (the minimum in the recurrence is attained by one of the
three incoming edges, and the boundary rows always allow the up/left move),
so the backtrace always reaches the base case: with enough fuel the returned
state always holds a pair. -/
lemma alignments_total (p t : List Char) :
    ∀ fuel x y pa ta st, x ≤ p.length → y ≤ t.length → x + y ≤ fuel →
      (alignments p t (msd p t) fuel x y pa ta st).isSome = true := by
  intro fuel
  induction fuel with
  | zero =>
      intro x y pa ta st hx hy hf
      have hb : x = 0 ∧ y = 0 := by omega
      rw [alignments, if_pos hb]
      rfl
  | succ fuel ih =>
      intro x y pa ta st hx hy hf
      rw [alignments]
      split
      · rfl
      · rename_i hxy
        by_cases hx0 : x = 0
        · subst hx0
          have hy0 : 0 < y := by
            rcases Nat.eq_zero_or_pos y with h | h
            · exact absurd ⟨rfl, h⟩ hxy
            · exact h
          have hguard : leftGuard (msd p t) 0 y = true := by
            unfold leftGuard
            rw [entry_msd p t 0 y (by omega) hy, entry_msd p t 0 (y - 1) (by omega) (by omega),
              msdCell_zero, msdCell_zero]
            simp only [beq_iff_eq]
            omega
          exact branch_isSome_of_true ⟨hy0, hguard⟩ _ _
            (ih 0 (y - 1) _ _ _ (by omega) (by omega) (by omega))
        · by_cases hy0 : y = 0
          · subst hy0
            have hx1 : 0 < x := by omega
            have hguard : upGuard (msd p t) x 0 = true := by
              unfold upGuard
              rw [entry_msd p t x 0 hx (by omega),
                entry_msd p t (x - 1) 0 (by omega) (by omega),
                msdCell_zero_right, msdCell_zero_right]
              simp only [beq_iff_eq]
              omega
            refine branch_isSome _ _ _ ?_
              fun s hs => alignments_isSome_mono p t _ fuel _ _ _ _ s hs
            exact branch_isSome_of_true ⟨hx1, hguard⟩ _ _
              (ih (x - 1) 0 _ _ _ (by omega) (by omega) (by omega))
          · obtain ⟨x1, rfl⟩ : ∃ x1, x = x1 + 1 := ⟨x - 1, by omega⟩
            obtain ⟨y1, rfl⟩ : ∃ y1, y = y1 + 1 := ⟨y - 1, by omega⟩
            have hcell := msdCell_succ_succ p t x1 y1
            have e00 := entry_msd p t (x1 + 1) (y1 + 1) hx hy
            have e10 := entry_msd p t x1 (y1 + 1) (by omega) hy
            have e01 := entry_msd p t (x1 + 1) y1 hx (by omega)
            have e11 := entry_msd p t x1 y1 (by omega) (by omega)
            have hchoice : msdCell p t (x1 + 1) (y1 + 1) = msdCell p t x1 (y1 + 1) + 1
                ∨ msdCell p t (x1 + 1) (y1 + 1) = msdCell p t (x1 + 1) y1 + 1
                ∨ msdCell p t (x1 + 1) (y1 + 1)
                    = msdCell p t x1 y1 + r (p.getD x1 'a') (t.getD y1 'a') := by
              omega
            rcases hchoice with hup | hleft | hdiag
            · have hguard : upGuard (msd p t) (x1 + 1) (y1 + 1) = true := by
                unfold upGuard
                simp only [Nat.add_sub_cancel]
                rw [e00, e10]
                simp only [beq_iff_eq]
                omega
              refine branch_isSome _ _ _ ?_
                fun s hs => alignments_isSome_mono p t _ fuel _ _ _ _ s hs
              exact branch_isSome_of_true ⟨by omega, hguard⟩ _ _
                (ih x1 (y1 + 1) _ _ _ (by omega) hy (by omega))
            · have hguard : leftGuard (msd p t) (x1 + 1) (y1 + 1) = true := by
                unfold leftGuard
                simp only [Nat.add_sub_cancel]
                rw [e00, e01]
                simp only [beq_iff_eq]
                omega
              exact branch_isSome_of_true ⟨by omega, hguard⟩ _ _
                (ih (x1 + 1) y1 _ _ _ hx (by omega) (by omega))
            · by_cases hc : p.getD x1 'a' = t.getD y1 'a'
              · have hr : r (p.getD x1 'a') (t.getD y1 'a') = 0 := by
                  unfold r
                  rw [if_pos hc]
                have hguard : matchGuard p t (msd p t) (x1 + 1) (y1 + 1) = true := by
                  unfold matchGuard
                  simp only [Nat.add_sub_cancel]
                  rw [e00, e11]
                  simp only [Bool.and_eq_true, beq_iff_eq]
                  exact ⟨by omega, hc⟩
                refine branch_isSome _ _ _ ?_
                  fun s hs => alignments_isSome_mono p t _ fuel _ _ _ _ s hs
                refine branch_isSome _ _ _ ?_
                  fun s hs => alignments_isSome_mono p t _ fuel _ _ _ _ s hs
                refine branch_isSome _ _ _ ?_
                  fun s hs => alignments_isSome_mono p t _ fuel _ _ _ _ s hs
                exact branch_isSome_of_true ⟨by omega, by omega, hguard⟩ _ _
                  (ih x1 y1 _ _ _ (by omega) (by omega) (by omega))
              · have hr : r (p.getD x1 'a') (t.getD y1 'a') = 1 := by
                  unfold r
                  rw [if_neg hc]
                have hguard : subGuard (msd p t) (x1 + 1) (y1 + 1) = true := by
                  unfold subGuard
                  simp only [Nat.add_sub_cancel]
                  rw [e00, e11]
                  simp only [beq_iff_eq]
                  omega
                refine branch_isSome _ _ _ ?_
                  fun s hs => alignments_isSome_mono p t _ fuel _ _ _ _ s hs
                refine branch_isSome _ _ _ ?_
                  fun s hs => alignments_isSome_mono p t _ fuel _ _ _ _ s hs
                exact branch_isSome_of_true ⟨by omega, by omega, hguard⟩ _ _
                  (ih x1 y1 _ _ _ (by omega) (by omega) (by omega))

/-- C2: for every `(presented, transcribed)` pair, `OptimalAlignments::new`
produces an alignment (it never reaches the internal length-mismatch
`panic!`, modelled as the `none` result): the two tracks have equal length,
that length is at least `max |presented| |transcribed|`, and no aligned cell
is a gap in both tracks. -/
theorem C2_alignment_invariants (p t : List Char) :
    ∃ a : OptimalAlignments, OptimalAlignments.new p t = some a ∧
      a.presented.length = a.transcribed.length ∧
      max p.length t.length ≤ a.presented.length ∧
      noDoubleGap a.presented a.transcribed = true := by
  have hsome := alignments_total p t (p.length + t.length) p.length t.length [] [] none
    (le_refl _) (le_refl _) (by omega)
  obtain ⟨pr, hpr⟩ := Option.isSome_iff_exists.mp hsome
  have hgood := alignments_good p t (msd p t) (max p.length t.length)
    (p.length + t.length) p.length t.length [] [] none rfl (by rfl) (by omega) trivial
  rw [hpr] at hgood
  have hlen : pr.1.length = pr.2.length := hgood.1
  have hM : max p.length t.length ≤ pr.1.length := hgood.2.1
  have hgap : noDoubleGap pr.1 pr.2 = true := hgood.2.2
  refine
    ⟨{ presented := pr.1, transcribed := pr.2,
       p_null := OptimalAlignments.pNull
         { presented := pr.1, transcribed := pr.2, p_null := Fl.num 0, len := pr.1.length },
       len := pr.1.length }, ?_, hlen, hM, hgap⟩
  simp only [OptimalAlignments.new]
  rw [hpr]
  simp only [Option.getD_some]
  rw [if_pos hlen]

/-- The alignment the source computes for presented `quickly` and transcribed
`qucehkly`: presented track `q,u,i,c,Gap,Gap,k,l,y`, transcribed track
`q,u,Gap,c,e,h,k,l,y`, length 9 (and presented-gap rate `2/9`). -/
def quicklyAlignment : OptimalAlignments :=
  { presented := [Element.Character 'q', Element.Character 'u', Element.Character 'i',
      Element.Character 'c', Element.Null, Element.Null, Element.Character 'k',
      Element.Character 'l', Element.Character 'y'],
    transcribed := [Element.Character 'q', Element.Character 'u', Element.Null,
      Element.Character 'c', Element.Character 'e', Element.Character 'h',
      Element.Character 'k', Element.Character 'l', Element.Character 'y'],
    p_null := Fl.num (mkRat 2 9), len := 9 }

/-- C3: the backtracking materializes only the last depth-first path: every
base-case hit at `(0, 0)` overwrites the stored tracks with the accumulated
ones regardless of the previous state, and aligning presented `quickly` with
transcribed `qucehkly` yields presented track `q,u,i,c,Gap,Gap,k,l,y` and
transcribed track `q,u,Gap,c,e,h,k,l,y`, of length 9. -/
theorem C3_last_path_wins :
    (∀ (p t : List Char) (d : List (List Nat)) (fuel : Nat) (pa ta : List Element)
      (st : Option (List Element × List Element)),
      alignments p t d fuel 0 0 pa ta st = some (pa, ta)) ∧
    OptimalAlignments.new ['q', 'u', 'i', 'c', 'k', 'l', 'y']
        ['q', 'u', 'c', 'e', 'h', 'k', 'l', 'y']
      = some quicklyAlignment := by
  constructor
  · intro p t d fuel pa ta st
    cases fuel <;> simp [alignments]
  · decide

/-- The alignment of two empty strings: empty tracks, length `0`, and the
stored `p_null` is `0/0`, i.e. NaN. -/
def emptyAlignment : OptimalAlignments :=
  { presented := [], transcribed := [], p_null := Fl.nan, len := 0 }

/-- The alignment of an empty presented string with transcribed `a`: the
presented track holds a single gap, so it has no symbol cell. -/
def gapOnlyAlignment : OptimalAlignments :=
  { presented := [Element.Null], transcribed := [Element.Character 'a'],
    p_null := Fl.num 1, len := 1 }

/-- C10: the probability accessors divide by counts that can be zero at the
public interface: with both strings empty, `new` succeeds with length 0 but
the stored `p_null` and `insertion_probability` evaluate `0/0`, which is NaN;
and for an alignment whose presented track has no symbol cell (empty
presented string, transcribed `a`), `omission`, `substitution` and `correct`
divide by zero and are NaN rather than probabilities. -/
theorem C10_nan_divisions :
    OptimalAlignments.new [] [] = some emptyAlignment ∧
    insertion_probability emptyAlignment = Fl.nan ∧
    OptimalAlignments.new [] ['a'] = some gapOnlyAlignment ∧
    omission_probability gapOnlyAlignment = Fl.nan ∧
    substitution_probability gapOnlyAlignment = Fl.nan ∧
    probability_of_correct_entries gapOnlyAlignment = Fl.nan := by
  decide

/-- Sum of a list of optional values: `none` exactly when some element is
`none`. -/
def optionSum (l : List (Option Fl)) : Option Fl :=
  (l.mapM id).map fun vs => vs.foldl Fl.add (Fl.num 0)

/-- Modelled from the spec: the conditional probability with the denominator
sum ranging over all symbols of the distribution PLUS the gap element — the
claim's reading of `p_j(i)`, stated for comparison with the source's
`p_j_i`. -/
def p_j_i_withGap (dist : Distribution) (a : OptimalAlignments) (i j : Element) :
    Option Fl := do
  let x ← pij dist a i j
  let s ← optionSum ((dist.map.map fun pr => pij dist a (Element.Character pr.1) j)
      ++ [pij dist a Element.Null j])
  pure (Fl.div x s)

/-- The conditional probability with the denominator sum ranging over the
distribution's symbols only, written independently of the fold style. -/
def p_j_i_symbolsOnly (dist : Distribution) (a : OptimalAlignments) (i j : Element) :
    Option Fl := do
  let x ← pij dist a i j
  let s ← optionSum (dist.map.map fun pr => pij dist a (Element.Character pr.1) j)
  pure (Fl.div x s)

lemma foldl_sumStep_none : ∀ l : List (Option Fl), l.foldl sumStep none = none := by
  intro l
  induction l with
  | nil => rfl
  | cons o l ih =>
      rw [List.foldl_cons]
      cases o <;> exact ih

lemma foldl_sumStep_eq :
    ∀ (l : List (Option Fl)) (q : Fl),
      l.foldl sumStep (some q) = (l.mapM id).map fun vs => vs.foldl Fl.add q := by
  intro l
  induction l with
  | nil => intro q; rfl
  | cons o l ih =>
      intro q
      rw [List.foldl_cons, List.mapM_cons]
      cases o with
      | none =>
          rw [show sumStep (some q) none = none from rfl, foldl_sumStep_none]
          rfl
      | some w =>
          rw [show sumStep (some q) (some w) = some (Fl.add q w) from rfl, ih (Fl.add q w)]
          cases hm : l.mapM id <;> simp [hm]

lemma Fl.add_num (a b : ℚ) : Fl.add (Fl.num a) (Fl.num b) = Fl.num (qAdd a b) := rfl

lemma Fl.neg_num (a : ℚ) : Fl.neg (Fl.num a) = Fl.num (qNeg a) := rfl

lemma Fl.mul_num (a b : ℚ) : Fl.mul (Fl.num a) (Fl.num b) = Fl.num (qMul a b) := rfl

lemma Fl.div_num (a b : ℚ) (h : b ≠ 0) :
    Fl.div (Fl.num a) (Fl.num b) = Fl.num (qDiv a b) := by
  rw [show Fl.div (Fl.num a) (Fl.num b)
      = if b = 0 then (if a = 0 then Fl.nan else if 0 < a then Fl.inf else Fl.ninf)
        else Fl.num (qDiv a b) from rfl, if_neg h]

/-- C7: the two diagonal guards of the backtracking are mutually exclusive at
every cell with positive coordinates: the match guard requires
`d[x][y] = d[x-1][y-1]` and the substitution guard requires
`d[x][y] = d[x-1][y-1] + 1`, which cannot hold together, so at most one
diagonal branch fires per cell even though both guards are evaluated
independently. -/
theorem C7_diagonal_guards_exclusive (p t : List Char) (x y : Nat)
    (hx : 0 < x) (hy : 0 < y) :
    ¬(matchGuard p t (msd p t) x y = true ∧ subGuard (msd p t) x y = true) := by
  rintro ⟨hm, hs⟩
  unfold matchGuard at hm
  unfold subGuard at hs
  rw [Bool.and_eq_true] at hm
  rw [beq_iff_eq] at hs
  have hmm := hm.1
  rw [beq_iff_eq] at hmm
  omega

/-- Witness for C7 at a concrete cell. -/
theorem C7_diagonal_guards_exclusive_witness :
    ¬(matchGuard ['a'] ['a'] (msd ['a'] ['a']) 1 1 = true ∧
      subGuard (msd ['a'] ['a']) 1 1 = true) :=
  C7_diagonal_guards_exclusive ['a'] ['a'] 1 1 (by decide) (by decide)

/-- An alignment with one matched symbol cell, used to instantiate C4. -/
def oneCharAlignment : OptimalAlignments :=
  { presented := [Element.Character 'a'], transcribed := [Element.Character 'a'],
    p_null := Fl.num 0, len := 1 }

set_option maxHeartbeats 2000000 in
/-- C4: on every alignment with positive length and at least one presented
symbol cell, the four channel rates are exactly the claimed count ratios:
insertion is the double-gap-free gap count over the total length, and each of
omission, substitution and correct is its cell count over the presented
symbol count, times `1 - insertion`; and the four values are not required to
sum to 1: on the empty-input alignment the sum is NaN, not 1. -/
theorem C4_channel_rates :
    (∀ a : OptimalAlignments,
      0 < a.len → 0 < a.n (fun p _ => !p.isNull) →
      insertion_probability a
        = Fl.num (((a.n fun p e => p.isNull && !e.isNull : Nat) : ℚ) / ((a.len : Nat) : ℚ)) ∧
      omission_probability a
        = Fl.num ((((a.n fun p e => !p.isNull && e.isNull : Nat) : ℚ)
              / ((a.n fun p _ => !p.isNull : Nat) : ℚ))
            * (1 - ((a.n fun p e => p.isNull && !e.isNull : Nat) : ℚ) / ((a.len : Nat) : ℚ))) ∧
      substitution_probability a
        = Fl.num ((((a.n fun p e => !p.isNull && (!e.isNull && p != e) : Nat) : ℚ)
              / ((a.n fun p _ => !p.isNull : Nat) : ℚ))
            * (1 - ((a.n fun p e => p.isNull && !e.isNull : Nat) : ℚ) / ((a.len : Nat) : ℚ))) ∧
      probability_of_correct_entries a
        = Fl.num ((((a.n fun p e => !p.isNull && (!e.isNull && p == e) : Nat) : ℚ)
              / ((a.n fun p _ => !p.isNull : Nat) : ℚ))
            * (1 - ((a.n fun p e => p.isNull && !e.isNull : Nat) : ℚ) / ((a.len : Nat) : ℚ)))) ∧
    ((OptimalAlignments.new [] []).map fun a =>
        (((insertion_probability a).add (omission_probability a)).add
          (substitution_probability a)).add (probability_of_correct_entries a))
      = some Fl.nan := by
  constructor
  · intro a h1 h2
    have hlen : (((a.len : Nat) : ℚ)) ≠ 0 := Nat.cast_ne_zero.mpr (by omega)
    have hns : (((a.n fun p _ => !p.isNull : Nat) : ℚ)) ≠ 0 := Nat.cast_ne_zero.mpr (by omega)
    refine ⟨?_, ?_, ?_, ?_⟩
    · unfold insertion_probability
      rw [Fl.div_num _ _ hlen, qDiv_eq]
    · unfold omission_probability insertion_probability Fl.sub
      rw [Fl.div_num _ _ hns, Fl.div_num _ _ hlen, Fl.neg_num, Fl.add_num, Fl.mul_num]
      congr 1
      rw [qMul_eq, qAdd_eq, qNeg_eq, qDiv_eq, qDiv_eq]
      ring
    · unfold substitution_probability insertion_probability Fl.sub
      rw [Fl.div_num _ _ hns, Fl.div_num _ _ hlen, Fl.neg_num, Fl.add_num, Fl.mul_num]
      congr 1
      rw [qMul_eq, qAdd_eq, qNeg_eq, qDiv_eq, qDiv_eq]
      ring
    · unfold probability_of_correct_entries insertion_probability Fl.sub
      rw [Fl.div_num _ _ hns, Fl.div_num _ _ hlen, Fl.neg_num, Fl.add_num, Fl.mul_num]
      congr 1
      rw [qMul_eq, qAdd_eq, qNeg_eq, qDiv_eq, qDiv_eq]
      ring
  · decide

/-- Witness for C4, discharging both hypotheses at a concrete alignment. -/
theorem C4_channel_rates_witness :
    (0 < oneCharAlignment.len ∧ 0 < oneCharAlignment.n fun p _ => !p.isNull) ∧
    (insertion_probability oneCharAlignment
        = Fl.num (((oneCharAlignment.n fun p e => p.isNull && !e.isNull : Nat) : ℚ)
            / ((oneCharAlignment.len : Nat) : ℚ)) ∧
      omission_probability oneCharAlignment
        = Fl.num ((((oneCharAlignment.n fun p e => !p.isNull && e.isNull : Nat) : ℚ)
              / ((oneCharAlignment.n fun p _ => !p.isNull : Nat) : ℚ))
            * (1 - ((oneCharAlignment.n fun p e => p.isNull && !e.isNull : Nat) : ℚ)
              / ((oneCharAlignment.len : Nat) : ℚ))) ∧
      substitution_probability oneCharAlignment
        = Fl.num ((((oneCharAlignment.n fun p e =>
                !p.isNull && (!e.isNull && p != e) : Nat) : ℚ)
              / ((oneCharAlignment.n fun p _ => !p.isNull : Nat) : ℚ))
            * (1 - ((oneCharAlignment.n fun p e => p.isNull && !e.isNull : Nat) : ℚ)
              / ((oneCharAlignment.len : Nat) : ℚ))) ∧
      probability_of_correct_entries oneCharAlignment
        = Fl.num ((((oneCharAlignment.n fun p e =>
                !p.isNull && (!e.isNull && p == e) : Nat) : ℚ)
              / ((oneCharAlignment.n fun p _ => !p.isNull : Nat) : ℚ))
            * (1 - ((oneCharAlignment.n fun p e => p.isNull && !e.isNull : Nat) : ℚ)
              / ((oneCharAlignment.len : Nat) : ℚ)))) :=
  ⟨⟨by decide, by decide⟩, C4_channel_rates.1 oneCharAlignment (by decide) (by decide)⟩

/-- The two-symbol distribution `a ↦ 1/2, b ↦ 1/2` used by the C5 and C6
counterexamples. -/
def abDist : Distribution :=
  { map := [('a', Fl.num (mkRat 1 2)), ('b', Fl.num (mkRat 1 2))] }

/-- C5 counterexample: on the alignment of presented `a` with transcribed
`ab` and the distribution `{a ↦ 1/2, b ↦ 1/2}`, the source's `p_j_i` at
`(Symbol a, Symbol a)` is `1`, while the claim's gap-inclusive formula gives
`1/2`: the gap element is NOT included in the denominator sum. -/
theorem C5_counterexample :
    ((OptimalAlignments.new ['a'] ['a', 'b']).map fun al =>
        (p_j_i abDist al (Element.Character 'a') (Element.Character 'a'),
          p_j_i_withGap abDist al (Element.Character 'a') (Element.Character 'a')))
      = some (some (Fl.num 1), some (Fl.num (mkRat 1 2))) ∧
    some (Fl.num 1) ≠ some (Fl.num (mkRat 1 2)) := by
  decide

/-- C5 (amended): the conditional probability `p_j(i)` equals `p(i,j)`
divided by the `None`-propagating sum of `p(i',j)` with `i'` ranging over the
distribution's symbols ONLY — the gap element is excluded from the
denominator (its inclusion is commented out in the source); on the sample
input the value at `(Symbol a, Symbol a)` is exactly `1`. -/
theorem C5_pji_denominator :
    (∀ (dist : Distribution) (a : OptimalAlignments) (i j : Element),
      p_j_i dist a i j = p_j_i_symbolsOnly dist a i j) ∧
    ((OptimalAlignments.new ['a'] ['a', 'b']).map fun al =>
        p_j_i abDist al (Element.Character 'a') (Element.Character 'a'))
      = some (some (Fl.num 1)) := by
  constructor
  · intro dist a i j
    simp only [p_j_i, p_j_i_symbolsOnly, optionSum]
    rw [foldl_sumStep_eq]
  · decide

lemma isSome_bind_of {α β : Type} {o : Option α} {k : α → Option β}
    (h : o.isSome = true) (hk : ∀ x, (k x).isSome = true) : (o >>= k).isSome = true := by
  obtain ⟨v, rfl⟩ := Option.isSome_iff_exists.mp h
  simpa using hk v

lemma dist_p_isSome (dist : Distribution) (c : Char)
    (h : ∃ pr ∈ dist.map, pr.1 = c) : (dist.p c).isSome = true := by
  unfold Distribution.p
  obtain ⟨pr, hmem, hc⟩ := h
  have hfind : (dist.map.find? fun pr2 => pr2.1 == c).isSome = true := by
    rw [List.find?_isSome]
    exact ⟨pr, hmem, by simp [hc]⟩
  obtain ⟨v, hv⟩ := Option.isSome_iff_exists.mp hfind
  rw [hv]
  rfl

lemma pij_isSome_char (dist : Distribution) (a : OptimalAlignments) (j : Element) (c : Char)
    (h : ∃ pr ∈ dist.map, pr.1 = c) :
    (pij dist a (Element.Character c) j).isSome = true := by
  simp only [pij, p_dash, OptimalAlignments.p]
  obtain ⟨v, hv⟩ := Option.isSome_iff_exists.mp (dist_p_isSome dist c h)
  rw [hv]
  rfl

lemma foldl_sumStep_isSome :
    ∀ (l : List (Option Fl)) (q : Fl), (∀ o ∈ l, o.isSome = true) →
      (l.foldl sumStep (some q)).isSome = true := by
  intro l
  induction l with
  | nil => intro q _; rfl
  | cons o l ih =>
      intro q h
      obtain ⟨w, rfl⟩ := Option.isSome_iff_exists.mp (h o (by simp))
      rw [List.foldl_cons, show sumStep (some q) (some w) = some (Fl.add q w) from rfl]
      exact ih (Fl.add q w) fun o2 ho => h o2 (by simp [ho])

lemma p_j_i_isSome (dist : Distribution) (a : OptimalAlignments) (i j : Element)
    (hi : (pij dist a i j).isSome = true) : (p_j_i dist a i j).isSome = true := by
  unfold p_j_i
  refine isSome_bind_of hi fun x => ?_
  refine isSome_bind_of ?_ fun s => rfl
  refine foldl_sumStep_isSome _ _ fun o ho => ?_
  rw [List.mem_map] at ho
  obtain ⟨pr, hpr, rfl⟩ := ho
  exact pij_isSome_char dist a j pr.1 ⟨pr, hpr, rfl⟩

lemma foldlM_option_isSome {α : Type} (f : Fl → α → Option Fl) :
    ∀ (l : List α), (∀ b a2, a2 ∈ l → (f b a2).isSome = true) →
      ∀ init, (l.foldlM f init).isSome = true := by
  intro l
  induction l with
  | nil => intro _ init; rfl
  | cons a2 l ih =>
      intro h init
      rw [List.foldlM_cons]
      refine isSome_bind_of (h init a2 (by simp)) fun b => ?_
      exact ih (fun b2 x hx => h b2 x (by simp [hx])) b

/-- C6 (amended): `hyx` and `ixy` never return `None`: they iterate only over
the distribution's own symbols, so a symbol of the presented or transcribed
string that is absent from the distribution is never looked up — the
computations always produce a defined value (the string symbols enter only
through the aggregate counts), and the `unreachable!()` arm of `p_i_j` is
never taken since the first coordinate is always a symbol of the
distribution. -/
theorem C6_hyx_ixy_defined (log2 : Fl → Fl) (dist : Distribution) (a : OptimalAlignments) :
    (hyx log2 dist a).isSome = true ∧ (ixy log2 dist a).isSome = true := by
  have hyxSome : (hyx log2 dist a).isSome = true := by
    unfold hyx
    refine isSome_bind_of ?_ fun acc => rfl
    refine foldlM_option_isSome _ _ ?_ (Fl.num 0)
    intro b i hi
    rw [List.mem_map] at hi
    obtain ⟨pr, hpr, rfl⟩ := hi
    refine foldlM_option_isSome _ _ ?_ b
    intro acc j _
    rw [if_neg (by simp [Element.isNull])]
    have hpij : (pij dist a (Element.Character pr.1) j).isSome = true :=
      pij_isSome_char dist a j pr.1 ⟨pr, hpr, rfl⟩
    refine isSome_bind_of hpij fun x => ?_
    refine isSome_bind_of (p_j_i_isSome dist a _ j hpij) fun y => ?_
    rfl
  refine ⟨hyxSome, ?_⟩
  unfold ixy
  obtain ⟨v, hv⟩ := Option.isSome_iff_exists.mp hyxSome
  rw [hv]
  rfl

/-- C6 counterexample: presented `ab`, transcribed `az` with `z` absent from
the distribution `{a ↦ 1/2, b ↦ 1/2}` — `hyx` and `ixy` still return `Some`,
not the `None` the claim requires (shown here with an arbitrary concrete
stand-in for the real `log2`, on which definedness does not depend). -/
theorem C6_counterexample :
    ((OptimalAlignments.new ['a', 'b'] ['a', 'z']).map fun al =>
        ((hyx (fun _ => Fl.num 0) abDist al).isSome,
          (ixy (fun _ => Fl.num 0) abDist al).isSome))
      = some (true, true) := by
  decide

/-- Every key of a `Frequencies` table has a nonzero count. -/
def freqInv (f : Frequencies) : Bool := f.map.all fun pr => pr.2 != 0

/-- Count lookup in a `Frequencies` table. -/
def freqLookup (f : Frequencies) (c : Char) : Option Nat :=
  (f.map.find? fun pr => pr.1 == c).map fun pr => pr.2

/-- C8 counterexample: `entry_char` also mutates the table, inserting an
absent symbol at count `0` and so breaking the all-counts-positive
invariant. -/
theorem C8_counterexample :
    (Frequencies.entry_char { map := [] } 'a').map = [('a', 0)] ∧
    freqInv (Frequencies.entry_char { map := [] } 'a') = false := by
  decide

lemma find?_map_update (c : Char) :
    ∀ l : List (Char × Nat),
      ((l.map fun pr => if pr.1 == c then (pr.1, pr.2 + 1) else pr).find?
          fun pr => pr.1 == c)
        = (l.find? fun pr => pr.1 == c).map fun pr => (pr.1, pr.2 + 1) := by
  intro l
  induction l with
  | nil => rfl
  | cons x l ih =>
      by_cases hx : x.1 == c
      · simp only [List.map_cons]
        rw [if_pos hx,
          List.find?_cons_of_pos (p := fun pr : Char × Nat => pr.1 == c) _
            (show ((x.1, x.2 + 1).1 == c) = true from hx),
          List.find?_cons_of_pos (p := fun pr : Char × Nat => pr.1 == c) _ hx]
        rfl
      · simp only [List.map_cons]
        rw [if_neg hx,
          List.find?_cons_of_neg (p := fun pr : Char × Nat => pr.1 == c) _ hx,
          List.find?_cons_of_neg (p := fun pr : Char × Nat => pr.1 == c) _ hx]
        exact ih

lemma find?_append_of_none {α : Type} (p : α → Bool) :
    ∀ (l1 l2 : List α), l1.find? p = none → (l1 ++ l2).find? p = l2.find? p := by
  intro l1 l2
  induction l1 with
  | nil => intro _; rfl
  | cons x l ih =>
      intro h
      by_cases hx : p x
      · rw [List.find?_cons_of_pos _ hx] at h
        exact absurd h (by simp)
      · rw [List.find?_cons_of_neg _ hx] at h
        rw [List.cons_append, List.find?_cons_of_neg _ hx]
        exact ih h

/-- C8 (amended): `record` preserves the all-counts-positive invariant and
either increments an existing symbol's count by one or inserts the symbol at
count one; but the table is NOT mutated only by `record` — `entry_char`
inserts absent symbols at count `0` (see the counterexample). -/
theorem C8_record_invariant (f : Frequencies) (c : Char) (h : freqInv f = true) :
    freqInv (f.record c) = true ∧
    freqLookup (f.record c) c = some ((freqLookup f c).getD 0 + 1) := by
  unfold Frequencies.record
  by_cases hfound : (f.map.find? fun pr => pr.1 == c).isSome = true
  · rw [if_pos hfound]
    constructor
    · unfold freqInv at h ⊢
      rw [List.all_map, List.all_eq_true] at *
      intro pr hpr
      by_cases hc : pr.1 == c
      · simp [Function.comp, hc]
      · simp only [Function.comp, if_neg hc]
        exact h pr hpr
    · unfold freqLookup
      rw [find?_map_update]
      obtain ⟨pr0, hpr0⟩ := Option.isSome_iff_exists.mp hfound
      rw [hpr0]
      rfl
  · rw [if_neg hfound]
    have hnone : f.map.find? (fun pr => pr.1 == c) = none := by
      rw [Option.not_isSome_iff_eq_none] at hfound
      exact hfound
    constructor
    · unfold freqInv at h ⊢
      rw [List.all_append, h]
      simp
    · unfold freqLookup
      rw [find?_append_of_none _ _ _ hnone, hnone]
      simp [List.find?]

/-- Witness for C8 at a concrete table. -/
theorem C8_record_invariant_witness :
    freqInv { map := [('a', 2)] } = true ∧
    (freqInv (Frequencies.record { map := [('a', 2)] } 'a') = true ∧
      freqLookup (Frequencies.record { map := [('a', 2)] } 'a') 'a'
        = some ((freqLookup { map := [('a', 2)] } 'a').getD 0 + 1)) :=
  ⟨by decide, C8_record_invariant { map := [('a', 2)] } 'a' (by decide)⟩

/-- Sum of the probability values of a distribution, in source order. -/
def distSum (d : Distribution) : Fl := (d.map.map fun pr => pr.2).foldl Fl.add (Fl.num 0)

/-- C9 counterexample: the non-empty table `{a ↦ 0}` (reachable through
`entry_char` or `with_map`): `Distribution::new` does not fail on it — it
returns a non-empty distribution — but the probability is `0/0`, NaN, and the
probabilities do not sum to 1. -/
theorem C9_counterexample :
    (Distribution.new { map := [('a', 0)] }).map ≠ [] ∧
    distSum (Distribution.new { map := [('a', 0)] }) ≠ Fl.num 1 := by
  decide

lemma foldl_add_num : ∀ (l : List ℚ) (q : ℚ),
    (l.map Fl.num).foldl Fl.add (Fl.num q) = Fl.num (q + l.sum) := by
  intro l
  induction l with
  | nil => intro q; simp
  | cons x l ih =>
      intro q
      rw [List.map_cons, List.foldl_cons, Fl.add_num, qAdd_eq, ih]
      congr 1
      rw [List.sum_cons]
      ring

lemma sum_map_div_cast (c : ℚ) : ∀ l : List Nat,
    (l.map fun v => ((v : Nat) : ℚ) / c).sum = (((l.sum : Nat) : ℚ)) / c := by
  intro l
  induction l with
  | nil => simp
  | cons x l ih =>
      rw [List.map_cons, List.sum_cons, ih, List.sum_cons]
      push_cast
      rw [add_div]

/-- C9 (amended): `Distribution::new` divides every count by the total and
never fails (it is a total function); whenever the total count is positive —
in particular for every non-empty table produced by `record` alone — the
resulting probabilities sum to exactly 1.  A non-empty table whose counts are
all zero instead yields NaN probabilities that do not sum to 1 (see the
counterexample). -/
theorem C9_distribution_sum (f : Frequencies) (h : 0 < f.n) :
    distSum (Distribution.new f) = Fl.num 1 := by
  have hn : (((f.n : Nat) : ℚ)) ≠ 0 := Nat.cast_ne_zero.mpr (by omega)
  unfold distSum Distribution.new
  show ((f.map.map fun pr =>
      (pr.1, Fl.div (Fl.num ((pr.2 : Nat) : ℚ)) (Fl.num ((f.n : Nat) : ℚ)))).map
        fun pr => pr.2).foldl Fl.add (Fl.num 0) = Fl.num 1
  have hmap : ((f.map.map fun pr =>
        (pr.1, Fl.div (Fl.num ((pr.2 : Nat) : ℚ)) (Fl.num ((f.n : Nat) : ℚ)))).map
          fun pr => pr.2)
      = (f.map.map fun pr => ((pr.2 : Nat) : ℚ) / ((f.n : Nat) : ℚ)).map Fl.num := by
    rw [List.map_map, List.map_map]
    refine List.map_congr_left fun pr _ => ?_
    simp only [Function.comp]
    rw [Fl.div_num _ _ hn, qDiv_eq]
  rw [hmap, foldl_add_num]
  congr 1
  rw [zero_add]
  have : (f.map.map fun pr => ((pr.2 : Nat) : ℚ) / ((f.n : Nat) : ℚ))
      = ((f.map.map fun pr => pr.2).map fun v => ((v : Nat) : ℚ) / ((f.n : Nat) : ℚ)) := by
    rw [List.map_map]
    rfl
  rw [this, sum_map_div_cast]
  rw [show ((f.map.map fun pr => pr.2).sum) = f.n from rfl]
  exact div_self hn

/-- Witness for C9 at a concrete table with positive total count. -/
theorem C9_distribution_sum_witness :
    0 < Frequencies.n { map := [('a', 2)] } ∧
    distSum (Distribution.new { map := [('a', 2)] }) = Fl.num 1 :=
  ⟨by decide, C9_distribution_sum { map := [('a', 2)] } (by decide)⟩

end Tet
